import Mathlib

set_option maxHeartbeats 1000000

/-!
Shallow embedding of the khub online-judge grading engine
(src/routes/submissions.js, src/routes/contests.js, src/models/Submission.js,
and the Contest model), together with theorems settling the frozen claims
about it.  Strings manipulated by the grader (program output, expected
output, stdin) are modelled as `List Char`; JavaScript numbers that hold
marks are modelled as `ℚ`, durations and counters as `ℕ`.
-/

/-- Strings as character lists, so that trimming and splitting can be
reasoned about structurally. -/
abbrev Str := List Char

/-- The whitespace class stripped by JavaScript `String.prototype.trim`
(restricted to the characters that can actually occur in program output:
space, tab, line feed, carriage return, vertical tab, form feed and
no-break space). -/
def jsWhitespace (c : Char) : Bool :=
  c = ' ' || c = '\t' || c = '\n' || c = '\r' || c = '\x0B' || c = '\x0C' || c = ' '

/-- Model of JavaScript `String.prototype.trim`: strip leading and trailing
whitespace, keeping internal whitespace intact. -/
def jsTrim (s : Str) : Str :=
  ((s.dropWhile jsWhitespace).reverse.dropWhile jsWhitespace).reverse

/-- Dispatcher outcome status, as produced by `executeCode`
(src/routes/submissions.js): `success`, `error` or `timeout`. -/
inductive Status
  | success
  | error
  | timeout
  deriving DecidableEq

/-- What the compilex runtime invoker hands to the `executeCode` callback:
the captured output (`data.output || ''`) and the diagnostic text
(`data.error`, empty when the invoker reported no error — JavaScript
truthiness of a string is non-emptiness). -/
structure InvokerData where
  output : Str
  error : String
  deriving DecidableEq

/-- The uniform outcome record `executeCode` resolves with. -/
structure Outcome where
  status : Status
  output : Str
  error : String
  executionTime : ℕ
  memoryUsed : ℕ
  deriving DecidableEq

/-- Embedding of `executeCode` (src/routes/submissions.js lines 381-502).
The invoker's callback payload `data` and the measured wall-clock time
`elapsed` (`Date.now() - startTime` at callback time) are explicit
parameters.  Branch structure mirrors the source: the python branch and the
mapped-language branch both check `data.error` first, then the elapsed-time
bound, and an unmapped language resolves immediately with an error. -/
def executeCode (language : String) (data : InvokerData) (elapsed : ℕ)
    (timeLimit : ℕ) : Outcome :=
  if language = "python" then
    if data.error ≠ "" then
      { status := Status.error, error := data.error, executionTime := elapsed,
        memoryUsed := 0, output := data.output }
    else if timeLimit < elapsed then
      { status := Status.timeout, error := "Time limit exceeded",
        executionTime := elapsed, memoryUsed := 0, output := data.output }
    else
      { status := Status.success, error := "", executionTime := elapsed,
        memoryUsed := 0, output := data.output }
  else if language = "c" ∨ language = "cpp" ∨ language = "java" ∨ language = "javascript" then
    if data.error ≠ "" then
      { status := Status.error, error := data.error, executionTime := elapsed,
        memoryUsed := 0, output := data.output }
    else if timeLimit < elapsed then
      { status := Status.timeout, error := "Time limit exceeded",
        executionTime := elapsed, memoryUsed := 0, output := data.output }
    else
      { status := Status.success, error := "", executionTime := elapsed,
        memoryUsed := 0, output := data.output }
  else
    { status := Status.error, error := "Unsupported language",
      executionTime := 0, memoryUsed := 0, output := [] }

/-- One test case of a question (testCaseSchema in the Contest model):
input, expected output, marks (`min: 0` in the schema) and hidden flag. -/
structure TestCase where
  input : Str
  expectedOutput : Str
  marks : ℚ
  isHidden : Bool
  deriving DecidableEq

/-- Per-test-case verdict (testCaseResultSchema status enum). -/
inductive Verdict
  | passed
  | failed
  | runtime_error
  | time_limit_exceeded
  | memory_limit_exceeded
  deriving DecidableEq

/-- One persisted test case result (testCaseResultSchema in
src/models/Submission.js; the ObjectId field is omitted). -/
structure TestCaseResult where
  status : Verdict
  executionTime : ℕ
  memoryUsed : ℕ
  output : Str
  error : String
  marksAwarded : ℚ
  maxMarks : ℚ
  isHidden : Bool
  deriving DecidableEq

/-- Classification of one dispatcher outcome into a test case result
(src/routes/submissions.js lines 291-322): the record starts as `failed`
with zero marks, becomes `passed` with full marks on success plus trimmed
output equality, `time_limit_exceeded` on timeout, `runtime_error` on
error, and stays `failed` otherwise. -/
def gradeTestCase (tc : TestCase) (result : Outcome) : TestCaseResult :=
  let base : TestCaseResult :=
    { status := Verdict.failed, executionTime := result.executionTime,
      memoryUsed := result.memoryUsed, output := result.output,
      error := result.error, marksAwarded := 0, maxMarks := tc.marks,
      isHidden := tc.isHidden }
  if result.status = Status.success ∧ jsTrim result.output = jsTrim tc.expectedOutput then
    { base with status := Verdict.passed, marksAwarded := tc.marks }
  else if result.status = Status.timeout then
    { base with status := Verdict.time_limit_exceeded }
  else if result.status = Status.error then
    { base with status := Verdict.runtime_error }
  else
    base

/-- The result recorded when executing one test case throws an unexpected
fault (the catch block at src/routes/submissions.js lines 326-340). -/
def faultResult (tc : TestCase) (msg : String) : TestCaseResult :=
  { status := Verdict.runtime_error, executionTime := 0, memoryUsed := 0,
    output := [], error := msg, marksAwarded := 0, maxMarks := tc.marks,
    isHidden := tc.isHidden }

/-- The mutable accumulators of the grading loop in `processSubmission`. -/
structure GradeAcc where
  results : List TestCaseResult
  totalExecutionTime : ℕ
  totalMemoryUsed : ℕ
  totalMarks : ℚ
  obtainedMarks : ℚ
  deriving DecidableEq

/-- One iteration of the grading loop (src/routes/submissions.js lines
275-341).  `exec` abstracts `await executeCode(...)`: `Except.ok` is a
normal resolution, `Except.error` an unexpected thrown fault.  On a normal
resolution the test case is classified, all accumulators advance; on a
fault the catch block records a `runtime_error` result with zero marks,
still adds the test case's marks to the denominator, and the loop
continues. -/
def gradeStep (exec : TestCase → Except String Outcome) (acc : GradeAcc)
    (tc : TestCase) : GradeAcc :=
  match exec tc with
  | Except.ok result =>
      let r := gradeTestCase tc result
      { results := acc.results ++ [r],
        totalExecutionTime := acc.totalExecutionTime + result.executionTime,
        totalMemoryUsed := max acc.totalMemoryUsed result.memoryUsed,
        totalMarks := acc.totalMarks + tc.marks,
        obtainedMarks := acc.obtainedMarks + r.marksAwarded }
  | Except.error msg =>
      { results := acc.results ++ [faultResult tc msg],
        totalExecutionTime := acc.totalExecutionTime,
        totalMemoryUsed := acc.totalMemoryUsed,
        totalMarks := acc.totalMarks + tc.marks,
        obtainedMarks := acc.obtainedMarks }

/-- The accumulators as initialised at the top of the grading loop. -/
def emptyGradeAcc : GradeAcc :=
  { results := [], totalExecutionTime := 0, totalMemoryUsed := 0,
    totalMarks := 0, obtainedMarks := 0 }

/-- The full grading loop: fold `gradeStep` over the question's test cases
starting from empty accumulators. -/
def processSubmissionCore (exec : TestCase → Except String Outcome)
    (tcs : List TestCase) : GradeAcc :=
  tcs.foldl (gradeStep exec) emptyGradeAcc

/-- `totalMarks > 0 ? Math.round((obtainedMarks / totalMarks) * 100) : 0`
(src/routes/submissions.js line 344).  `round` on `ℚ` is
`⌊x + 1/2⌋`, which agrees with JavaScript `Math.round` on the
non-negative values arising here. -/
def scorePct (totalMarks obtainedMarks : ℚ) : ℤ :=
  if 0 < totalMarks then round (obtainedMarks / totalMarks * 100) else 0

/-- Submission status state machine (submissionSchema status enum). -/
inductive SubStatus
  | pending
  | running
  | completed
  | error
  deriving DecidableEq

/-- The persisted submission record (submissionSchema in
src/models/Submission.js; identifier and code/language fields omitted). -/
structure Submission where
  status : SubStatus
  testCaseResults : List TestCaseResult
  totalMarks : ℚ
  marksAwarded : ℚ
  scorePercentage : ℤ
  maxMarks : ℚ
  passedTestCases : ℕ
  totalTestCases : ℕ
  executionTime : ℕ
  memoryUsed : ℕ
  compilationError : String
  deriving DecidableEq

/-- The `submissionSchema.pre('save')` hook (src/models/Submission.js lines
116-121), applied on every save: it overwrites `totalMarks` with the sum of
`marksAwarded` over the test case results, and recomputes
`passedTestCases` and `totalTestCases`. -/
def saveHook (s : Submission) : Submission :=
  { s with
    totalMarks := (s.testCaseResults.map (fun r => r.marksAwarded)).sum,
    passedTestCases := (s.testCaseResults.filter
      (fun r => r.status == Verdict.passed)).length,
    totalTestCases := s.testCaseResults.length }

/-- Embedding of `processSubmission` (src/routes/submissions.js lines
260-378).  `setup` models whether the code before/around the loop throws
(`Except.error msg` = the outer catch fires with that message: status
becomes `error`, the fault message is stored in `compilationError`, and no
results are recorded).  On the normal path the submission transitions to
`running` (persisted through the hook), the loop runs, and the final state
is persisted — again through the pre-save hook. -/
def processSubmission (setup : Except String Unit)
    (exec : TestCase → Except String Outcome) (tcs : List TestCase)
    (s : Submission) : Submission :=
  match setup with
  | Except.error msg =>
      saveHook { s with status := SubStatus.error, compilationError := msg }
  | Except.ok _ =>
      let s1 := saveHook { s with status := SubStatus.running }
      let acc := processSubmissionCore exec tcs
      saveHook { s1 with
        testCaseResults := acc.results,
        executionTime := acc.totalExecutionTime,
        memoryUsed := acc.totalMemoryUsed,
        status := SubStatus.completed,
        marksAwarded := acc.obtainedMarks,
        totalMarks := acc.totalMarks,
        scorePercentage := scorePct acc.totalMarks acc.obtainedMarks }

/-- The result the i-th loop iteration appends: classification on a normal
dispatcher resolution, the catch-block record on a fault. -/
def stepOutcome (exec : TestCase → Except String Outcome)
    (tc : TestCase) : TestCaseResult :=
  match exec tc with
  | Except.ok r => gradeTestCase tc r
  | Except.error msg => faultResult tc msg

/-- A fresh pending submission, with the schema defaults. -/
def initSubmission : Submission :=
  { status := SubStatus.pending, testCaseResults := [], totalMarks := 0,
    marksAwarded := 0, scorePercentage := 0, maxMarks := 0,
    passedTestCases := 0, totalTestCases := 0, executionTime := 0,
    memoryUsed := 0, compilationError := "" }

/-- The concrete test case used to exhibit the `totalMarks` divergence:
marks 5, expected output `2`. -/
def c1TestCase : TestCase :=
  { input := ['3'], expectedOutput := ['2'], marks := 5, isHidden := false }

/-- A successful dispatcher outcome carrying the wrong output `1`. -/
def c1Outcome : Outcome :=
  { status := Status.success, output := ['1'], error := "",
    executionTime := 7, memoryUsed := 0 }

/-- A dispatcher that resolves successfully with the wrong output `1`. -/
def c1Exec : TestCase → Except String Outcome := fun _ => Except.ok c1Outcome

/-- An invoker payload reporting an error, used against the timeout
claim. -/
def lateErrData : InvokerData := { output := [], error := "boom" }

/-- An invoker payload reporting no error. -/
def lateOkData : InvokerData := { output := ['5'], error := "" }

/-- A dispatcher wrapping an actual `executeCode` outcome (instant python
run within the limit). -/
def c9Exec : TestCase → Except String Outcome := fun _ =>
  Except.ok (executeCode "python" { output := [], error := "" } 0 1000)

/-- First test case of the fault-isolation scenario: executing it
throws. -/
def c8TcA : TestCase :=
  { input := [], expectedOutput := ['1'], marks := 3, isHidden := false }

/-- Second test case of the fault-isolation scenario: it grades
normally. -/
def c8TcB : TestCase :=
  { input := [], expectedOutput := ['1'], marks := 4, isHidden := true }

/-- The successful outcome of the second fault-isolation test case. -/
def c8Outcome : Outcome :=
  { status := Status.success, output := ['1'], error := "",
    executionTime := 2, memoryUsed := 0 }

/-- A dispatcher that throws on the visible test case and resolves on the
hidden one. -/
def c8Exec : TestCase → Except String Outcome := fun tc =>
  if tc.isHidden then Except.ok c8Outcome else Except.error "infra fault"

/-- An always-correct dispatcher: echoes the expected output. -/
def c4Outcome (tc : TestCase) : Outcome :=
  { status := Status.success, output := tc.expectedOutput, error := "",
    executionTime := 1, memoryUsed := 0 }

/-- Dispatcher wrapper for `c4Outcome`. -/
def c4Exec : TestCase → Except String Outcome := fun tc =>
  Except.ok (c4Outcome tc)

/-- JavaScript `str.split('\n')` on character lists: the empty string
splits to `[""]`, and every newline separates two (possibly empty)
lines. -/
def charSplit : Str → List Str
  | [] => [[]]
  | c :: rest =>
      if c = '\n' then [] :: charSplit rest
      else
        match charSplit rest with
        | [] => [[c]]
        | s :: ss => (c :: s) :: ss

/-- Joining lines back with a newline between consecutive lines: exactly
the content the injected python `input()` preamble can ever deliver. -/
def joinLines : List Str → Str
  | [] => []
  | [s] => s
  | s :: rest => s ++ '\n' :: joinLines rest

/-- The simulated stdin lines prepared by the python branch of
`executeCode` (src/routes/submissions.js lines 394-399):
`String(input || '').trim().split('\n')`.  A missing input is the empty
string. -/
def pythonInputLines (input : Option Str) : List Str :=
  charSplit (jsTrim (input.getD []))

/-- The injected `input()` function (lines 402-408): it returns the k-th
prepared line while lines remain and the empty string once they are
exhausted. -/
def simInput (input : Option Str) (k : ℕ) : Str :=
  (pythonInputLines input).getD k []

/-- Concrete python input with leading blank line / trailing whitespace,
for the C10 witness. -/
def c10Input : Str :=
  ' ' :: '\n' :: 'a' :: 'b' :: '\n' :: 'c' :: ' ' :: '\n' :: []

/-- A question as the submit route sees it (questionSchema): only the
identifier and derived total marks matter for creation checks. -/
structure ContestQuestion where
  id : String
  timeLimit : ℕ
  totalMarks : ℚ
  deriving DecidableEq

/-- A contest (contestSchema): activation flag, time window, allowed
languages and the per-(user, question) attempt cap. -/
structure Contest where
  id : String
  isActive : Bool
  startTime : ℤ
  endTime : ℤ
  allowedLanguages : List String
  maxAttempts : ℕ
  questions : List ContestQuestion
  deriving DecidableEq

/-- The identifying triple of a persisted submission, as consulted by the
attempt-count query. -/
structure SubRecord where
  contestId : String
  questionId : String
  userId : String
  deriving DecidableEq

/-- The request body of `POST /submissions` plus the authenticated user. -/
structure SubmitReq where
  contestId : String
  questionId : String
  code : String
  language : String
  userId : String
  deriving DecidableEq

/-- The persistent state the submit route reads and writes. -/
structure DB where
  contests : List Contest
  submissions : List SubRecord
  deriving DecidableEq

/-- The response classes the submit route can produce before grading. -/
inductive SubmitOutcome
  | badRequest (msg : String)
  | notFound (msg : String)
  | forbidden (msg : String)
  | created
  deriving DecidableEq

/-- `Contest.findById`. -/
def findContest (db : DB) (cid : String) : Option Contest :=
  db.contests.find? (fun c => c.id == cid)

/-- `contest.questions.id(questionId)`. -/
def findQuestion (c : Contest) (qid : String) : Option ContestQuestion :=
  c.questions.find? (fun q => q.id == qid)

/-- `Submission.countDocuments({contestId, questionId, userId})`. -/
def countSubmissions (db : DB) (cid qid uid : String) : ℕ :=
  (db.submissions.filter
    (fun r => r.contestId == cid && r.questionId == qid && r.userId == uid)).length

/-- The record inserted for a newly created submission. -/
def mkSubRecord (cid qid uid : String) : SubRecord :=
  { contestId := cid, questionId := qid, userId := uid }

/-- Embedding of the submission-creation route
(src/routes/submissions.js lines 110-167), up to and including the
creation of the pending Submission record.  The checks appear in source
order: required fields, contest exists, question exists within the
contest, contest active and not past `endTime`, contest started, language
allowed, prior attempt count strictly below `maxAttempts`. -/
def handleSubmit (req : SubmitReq) (db : DB) (now : ℤ) : SubmitOutcome × DB :=
  if req.contestId = "" ∨ req.questionId = "" ∨ req.code = "" ∨ req.language = "" then
    (SubmitOutcome.badRequest "All fields are required", db)
  else
    match findContest db req.contestId with
    | none => (SubmitOutcome.notFound "Contest not found", db)
    | some contest =>
        match findQuestion contest req.questionId with
        | none => (SubmitOutcome.notFound "Question not found", db)
        | some _question =>
            if ¬contest.isActive ∨ contest.endTime < now then
              (SubmitOutcome.forbidden "Contest is not accessible", db)
            else if now < contest.startTime then
              (SubmitOutcome.forbidden "Contest has not started yet", db)
            else if ¬ req.language ∈ contest.allowedLanguages then
              (SubmitOutcome.badRequest "Programming language not allowed for this contest", db)
            else if contest.maxAttempts ≤
                countSubmissions db req.contestId req.questionId req.userId then
              (SubmitOutcome.forbidden "Maximum submission attempts reached", db)
            else
              (SubmitOutcome.created,
                { db with submissions := db.submissions ++
                    [mkSubRecord req.contestId req.questionId req.userId] })

/-- A live contest whose window closes at time 100, for the C5
counterexample. -/
def c5Contest : Contest :=
  { id := "c1", isActive := true, startTime := 0, endTime := 100,
    allowedLanguages := ["python"], maxAttempts := 2,
    questions := [{ id := "q1", timeLimit := 2000, totalMarks := 5 }] }

/-- Database holding only `c5Contest` and no submissions. -/
def c5Db : DB := { contests := [c5Contest], submissions := [] }

/-- A well-formed submit request for `c5Contest`. -/
def c5Req : SubmitReq :=
  { contestId := "c1", questionId := "q1", code := "x",
    language := "python", userId := "u1" }

/-- The projection of a persisted Submission that the leaderboard route
reads (src/routes/contests.js lines 211-254). -/
structure LBSubmission where
  userId : String
  questionId : String
  marksAwarded : ℚ
  executionTime : ℕ
  submittedAt : ℤ
  deriving DecidableEq

/-- One `userScores` map entry of the leaderboard aggregation
(src/routes/contests.js lines 224-234). -/
structure UserScore where
  userId : String
  totalScore : ℚ
  problemsSolved : ℕ
  totalTime : ℕ
  lastSubmission : ℤ
  maxPossibleScore : ℚ
  questionScores : List (String × ℚ)
  deriving DecidableEq

/-- `Map.get`, on an association list preserving insertion order. -/
def amFind {α : Type} (k : String) : List (String × α) → Option α
  | [] => none
  | (k2, v) :: rest => if k2 = k then some v else amFind k rest

/-- `Map.set`: update in place if the key is present, else append. -/
def amSet {α : Type} (k : String) (v : α) : List (String × α) → List (String × α)
  | [] => [(k, v)]
  | (k2, v2) :: rest =>
      if k2 = k then (k, v) :: rest else (k2, v2) :: amSet k v rest

/-- The fresh entry inserted the first time a user is seen
(src/routes/contests.js lines 225-234). -/
def freshEntry (s : LBSubmission) : UserScore :=
  { userId := s.userId, totalScore := 0, problemsSolved := 0, totalTime := 0,
    lastSubmission := s.submittedAt, maxPossibleScore := 0,
    questionScores := [] }

/-- Processing one submission against one user's entry
(src/routes/contests.js lines 237-253): if the submission improves the
per-question best, the improvement is added to `totalScore`, the best is
updated, and `problemsSolved` increments exactly when the best crosses
from 0 to positive; `totalTime` and `lastSubmission` advance on every
submission. -/
def suStep (us : UserScore) (s : LBSubmission) : UserScore :=
  let currentQuestionScore := (amFind s.questionId us.questionScores).getD 0
  let us1 :=
    if currentQuestionScore < s.marksAwarded then
      { us with
        totalScore := us.totalScore + (s.marksAwarded - currentQuestionScore),
        questionScores := amSet s.questionId s.marksAwarded us.questionScores,
        problemsSolved := us.problemsSolved +
          (if currentQuestionScore = 0 ∧ 0 < s.marksAwarded then 1 else 0) }
    else us
  { us1 with
    totalTime := us1.totalTime + s.executionTime,
    lastSubmission := s.submittedAt }

/-- One iteration of the aggregation loop over the `userScores` map:
fetch-or-create the user entry, update it with the submission. -/
def lbStep (m : List (String × UserScore)) (s : LBSubmission) :
    List (String × UserScore) :=
  amSet s.userId (suStep ((amFind s.userId m).getD (freshEntry s)) s) m

/-- The full aggregation: fold the scanned submissions (the route scans
them in descending `submittedAt` order) over an empty map. -/
def buildScores (subs : List LBSubmission) : List (String × UserScore) :=
  subs.foldl lbStep []

/-- The second pass setting `maxPossibleScore` on every entry
(src/routes/contests.js lines 257-260), yielding the entry list. -/
def setMaxPossible (mp : ℚ) (m : List (String × UserScore)) : List UserScore :=
  m.map (fun p => { p.2 with maxPossibleScore := mp })

/-- The sort comparator (src/routes/contests.js lines 264-274):
`totalScore` descending, then `problemsSolved` descending, then
`totalTime` ascending. -/
def cmpEntries (a b : UserScore) : ℚ :=
  if b.totalScore ≠ a.totalScore then b.totalScore - a.totalScore
  else if b.problemsSolved ≠ a.problemsSolved then
    (b.problemsSolved : ℚ) - (a.problemsSolved : ℚ)
  else (a.totalTime : ℚ) - (b.totalTime : ℚ)

instance cmpEntriesLE_dec :
    DecidableRel (fun a b : UserScore => cmpEntries a b ≤ 0) := fun a b =>
  inferInstanceAs (Decidable (cmpEntries a b ≤ 0))

/-- `Array.prototype.sort` with `cmpEntries`, modelled as an insertion
sort with respect to "compares less-or-equal". -/
def sortEntries (l : List UserScore) : List UserScore :=
  List.insertionSort (fun a b => cmpEntries a b ≤ 0) l

/-- The leaderboard route end to end: aggregate, set the maximum possible
score (the sum of the contest's question totals), sort. -/
def buildLeaderboard (maxPossible : ℚ) (subs : List LBSubmission) :
    List UserScore :=
  sortEntries (setMaxPossible maxPossible (buildScores subs))

/-- The ranking order stated by the spec: `totalScore` descending, ties by
`problemsSolved` descending, remaining ties by `totalTime` ascending. -/
def lbRel (a b : UserScore) : Prop :=
  b.totalScore < a.totalScore ∨
    (b.totalScore = a.totalScore ∧
      (b.problemsSolved < a.problemsSolved ∨
        (b.problemsSolved = a.problemsSolved ∧ a.totalTime ≤ b.totalTime)))

/-- One user's submissions, in scan order. -/
def subsFor (u : String) (subs : List LBSubmission) : List LBSubmission :=
  subs.filter (fun s => s.userId == u)

/-- The marks awarded on a fixed question across a submission list. -/
def marksFor (q : String) (P : List LBSubmission) : List ℚ :=
  (P.filter (fun s => s.questionId == q)).map (fun s => s.marksAwarded)

/-- The best (max, floored at the map default 0) marks awarded on a fixed
question. -/
def bestOf (P : List LBSubmission) (q : String) : ℚ :=
  (marksFor q P).foldr max 0

/-- The distinct questions attempted in a submission list. -/
def qidsOf (P : List LBSubmission) : Finset String :=
  (P.map (fun s => s.questionId)).toFinset

/-- Specification-side total score: sum over attempted questions of the
best marks awarded. -/
def lbTotalScoreSpec (P : List LBSubmission) : ℚ :=
  (qidsOf P).sum (fun q => bestOf P q)

/-- Specification-side problems solved: questions whose best score is
positive. -/
def lbSolvedSpec (P : List LBSubmission) : ℕ :=
  ((qidsOf P).filter (fun q => 0 < bestOf P q)).card

/-- Specification-side total time: execution time summed over every
submission considered. -/
def lbTimeSpec (P : List LBSubmission) : ℕ :=
  (P.map (fun s => s.executionTime)).sum

/-- The earlier, better submission of the spec's 40-then-30 example. -/
def lbSubA : LBSubmission :=
  { userId := "u1", questionId := "q1", marksAwarded := 40,
    executionTime := 5, submittedAt := 1 }

/-- The later, worse submission of the spec's 40-then-30 example. -/
def lbSubB : LBSubmission :=
  { userId := "u1", questionId := "q1", marksAwarded := 30,
    executionTime := 7, submittedAt := 2 }

/-- The example scan list: the route reads submissions in descending
`submittedAt` order, so the later submission comes first. -/
def lbExample : List LBSubmission := [lbSubB, lbSubA]

/-- The per-user residual of the aggregation fold: processing a list of
one user's submissions starting from that user's current entry (`none`
before the first is seen). -/
def suFoldOpt (o : Option UserScore) (P : List LBSubmission) :
    Option UserScore :=
  P.foldl (fun o s => some (suStep (o.getD (freshEntry s)) s)) o

/-- The invariant tying one user's entry to the prefix of that user's
submissions already processed: the tracked per-question scores are the
per-question bests, and the three aggregates match their specification
values. -/
def lbInv (P : List LBSubmission) (us : UserScore) : Prop :=
  (∀ q, (amFind q us.questionScores).getD 0 = bestOf P q) ∧
  us.totalScore = lbTotalScoreSpec P ∧
  us.problemsSolved = lbSolvedSpec P ∧
  us.totalTime = lbTimeSpec P

/-- The entry the aggregation is expected to produce from the spec's
40-then-30 example. -/
def lbEntry40 : UserScore :=
  { userId := "u1", totalScore := 40, problemsSolved := 1,
    totalTime := 12, lastSubmission := 1, maxPossibleScore := 0,
    questionScores := [("q1", 40)] }

/-- A zero-mark submission for the C6 witness (all aggregation steps
reduce without rational normalisation). -/
def lbSubZ : LBSubmission :=
  { userId := "u1", questionId := "q1", marksAwarded := 0,
    executionTime := 3, submittedAt := 5 }

/-- The entry the aggregation produces from `lbSubZ` alone. -/
def lbEntryZ : UserScore :=
  { userId := "u1", totalScore := 0, problemsSolved := 0, totalTime := 3,
    lastSubmission := 5, maxPossibleScore := 40, questionScores := [] }

/- ### Characterisation of the grading loop -/

theorem gradeStep_results (exec : TestCase → Except String Outcome)
    (acc : GradeAcc) (tc : TestCase) :
    (gradeStep exec acc tc).results = acc.results ++ [stepOutcome exec tc] := by
  cases h : exec tc <;> simp [gradeStep, stepOutcome, h]

theorem gradeStep_totalMarks (exec : TestCase → Except String Outcome)
    (acc : GradeAcc) (tc : TestCase) :
    (gradeStep exec acc tc).totalMarks = acc.totalMarks + tc.marks := by
  cases h : exec tc <;> simp [gradeStep, h]

theorem gradeStep_obtainedMarks (exec : TestCase → Except String Outcome)
    (acc : GradeAcc) (tc : TestCase) :
    (gradeStep exec acc tc).obtainedMarks
      = acc.obtainedMarks + (stepOutcome exec tc).marksAwarded := by
  cases h : exec tc <;> simp [gradeStep, stepOutcome, h, faultResult]

theorem gradeStep_totalExecutionTime (exec : TestCase → Except String Outcome)
    (acc : GradeAcc) (tc : TestCase) :
    (gradeStep exec acc tc).totalExecutionTime
      = acc.totalExecutionTime
        + (match exec tc with | Except.ok r => r.executionTime | Except.error _ => 0) := by
  cases h : exec tc <;> simp [gradeStep, h]

theorem gradeFold_results (exec : TestCase → Except String Outcome)
    (tcs : List TestCase) :
    ∀ acc : GradeAcc, (tcs.foldl (gradeStep exec) acc).results
      = acc.results ++ tcs.map (stepOutcome exec) := by
  induction tcs with
  | nil => intro acc; simp
  | cons tc rest ih =>
      intro acc
      simp only [List.foldl_cons, List.map_cons, ih, gradeStep_results,
        List.append_assoc, List.singleton_append]

theorem gradeFold_totalMarks (exec : TestCase → Except String Outcome)
    (tcs : List TestCase) :
    ∀ acc : GradeAcc, (tcs.foldl (gradeStep exec) acc).totalMarks
      = acc.totalMarks + (tcs.map (fun tc => tc.marks)).sum := by
  induction tcs with
  | nil => intro acc; simp
  | cons tc rest ih =>
      intro acc
      simp only [List.foldl_cons, List.map_cons, List.sum_cons, ih,
        gradeStep_totalMarks]
      ring

theorem gradeFold_obtainedMarks (exec : TestCase → Except String Outcome)
    (tcs : List TestCase) :
    ∀ acc : GradeAcc, (tcs.foldl (gradeStep exec) acc).obtainedMarks
      = acc.obtainedMarks
        + (tcs.map (fun tc => (stepOutcome exec tc).marksAwarded)).sum := by
  induction tcs with
  | nil => intro acc; simp
  | cons tc rest ih =>
      intro acc
      simp only [List.foldl_cons, List.map_cons, List.sum_cons, ih,
        gradeStep_obtainedMarks]
      ring

theorem core_results (exec : TestCase → Except String Outcome)
    (tcs : List TestCase) :
    (processSubmissionCore exec tcs).results = tcs.map (stepOutcome exec) := by
  simp [processSubmissionCore, gradeFold_results, emptyGradeAcc]

theorem core_totalMarks (exec : TestCase → Except String Outcome)
    (tcs : List TestCase) :
    (processSubmissionCore exec tcs).totalMarks
      = (tcs.map (fun tc => tc.marks)).sum := by
  simp [processSubmissionCore, gradeFold_totalMarks, emptyGradeAcc]

theorem core_obtainedMarks (exec : TestCase → Except String Outcome)
    (tcs : List TestCase) :
    (processSubmissionCore exec tcs).obtainedMarks
      = (tcs.map (fun tc => (stepOutcome exec tc).marksAwarded)).sum := by
  simp [processSubmissionCore, gradeFold_obtainedMarks, emptyGradeAcc]

/- ### Claim theorems -/

/-- C3 (confirmed): for every test case graded by `processSubmission`, the
verdict is `passed` iff the dispatcher status is `success` and the trimmed
actual output equals the trimmed expected output; `time_limit_exceeded`
iff the status is `timeout`; `runtime_error` iff the status is `error`;
`failed` exactly on success with mismatched output; and the marks awarded
equal the test case's marks iff the verdict is `passed`, else 0. -/
theorem claim3_verdict_classification (tc : TestCase) (result : Outcome) :
    ((gradeTestCase tc result).status = Verdict.passed ↔
      (result.status = Status.success ∧
        jsTrim result.output = jsTrim tc.expectedOutput)) ∧
    ((gradeTestCase tc result).status = Verdict.time_limit_exceeded ↔
      result.status = Status.timeout) ∧
    ((gradeTestCase tc result).status = Verdict.runtime_error ↔
      result.status = Status.error) ∧
    ((gradeTestCase tc result).status = Verdict.failed ↔
      (result.status = Status.success ∧
        jsTrim result.output ≠ jsTrim tc.expectedOutput)) ∧
    ((gradeTestCase tc result).marksAwarded =
      if (gradeTestCase tc result).status = Verdict.passed then tc.marks else 0) := by
  cases hs : result.status <;>
    by_cases ht : jsTrim result.output = jsTrim tc.expectedOutput <;>
      simp [gradeTestCase, hs, ht]

/-- C1 (code bug): `processSubmission` assigns
`submission.totalMarks = Σ maxMarks` (line 360), but the
`pre('save')` hook then overwrites `totalMarks` with the sum of
`marksAwarded`, so the persisted field diverges from the claim.  On a
single test case worth 5 marks whose output mismatches, the persisted
submission is `completed` with `Σ maxMarks = 5` yet `totalMarks = 0`;
the `marksAwarded` half of the claim does hold. -/
theorem claim1_totalMarks_overwritten :
    (processSubmission (Except.ok ()) c1Exec [c1TestCase] initSubmission).status
        = SubStatus.completed ∧
    ((processSubmission (Except.ok ()) c1Exec [c1TestCase]
        initSubmission).testCaseResults.map (fun r => r.maxMarks)).sum = 5 ∧
    (processSubmission (Except.ok ()) c1Exec [c1TestCase]
        initSubmission).totalMarks = 0 ∧
    (processSubmission (Except.ok ()) c1Exec [c1TestCase]
        initSubmission).totalMarks ≠
      ((processSubmission (Except.ok ()) c1Exec [c1TestCase]
        initSubmission).testCaseResults.map (fun r => r.maxMarks)).sum ∧
    (processSubmission (Except.ok ()) c1Exec [c1TestCase]
        initSubmission).marksAwarded =
      ((processSubmission (Except.ok ()) c1Exec [c1TestCase]
        initSubmission).testCaseResults.map (fun r => r.marksAwarded)).sum := by
  have ht : jsTrim (['1'] : Str) ≠ jsTrim (['2'] : Str) := by decide
  norm_num [processSubmission, processSubmissionCore, emptyGradeAcc, gradeStep,
    c1Exec, c1Outcome, gradeTestCase, saveHook, initSubmission, c1TestCase, ht]
  decide

theorem executeCode_memoryUsed (language : String) (data : InvokerData)
    (elapsed timeLimit : ℕ) :
    (executeCode language data elapsed timeLimit).memoryUsed = 0 := by
  unfold executeCode
  split_ifs <;> rfl

theorem gradeTestCase_memoryUsed (tc : TestCase) (result : Outcome) :
    (gradeTestCase tc result).memoryUsed = result.memoryUsed := by
  unfold gradeTestCase
  split_ifs <;> rfl

theorem gradeFold_memory_zero (exec : TestCase → Except String Outcome) :
    ∀ tcs : List TestCase,
      (∀ tc ∈ tcs, ∀ r, exec tc = Except.ok r → r.memoryUsed = 0) →
      ∀ acc : GradeAcc,
        (tcs.foldl (gradeStep exec) acc).totalMemoryUsed = acc.totalMemoryUsed := by
  intro tcs
  induction tcs with
  | nil => intro _ acc; simp
  | cons tc rest ih =>
      intro h acc
      have hstep : (gradeStep exec acc tc).totalMemoryUsed = acc.totalMemoryUsed := by
        cases hx : exec tc with
        | ok r => simp [gradeStep, hx, h tc (by simp) r hx]
        | error m => simp [gradeStep, hx]
      rw [List.foldl_cons, ih (fun tc' h' r hr => h tc' (by simp [h']) r hr), hstep]

theorem processSubmission_ok_fields (exec : TestCase → Except String Outcome)
    (tcs : List TestCase) (s : Submission) :
    (processSubmission (Except.ok ()) exec tcs s).status = SubStatus.completed ∧
    (processSubmission (Except.ok ()) exec tcs s).testCaseResults
      = (processSubmissionCore exec tcs).results ∧
    (processSubmission (Except.ok ()) exec tcs s).memoryUsed
      = (processSubmissionCore exec tcs).totalMemoryUsed ∧
    (processSubmission (Except.ok ()) exec tcs s).scorePercentage
      = scorePct (processSubmissionCore exec tcs).totalMarks
          (processSubmissionCore exec tcs).obtainedMarks := by
  refine ⟨rfl, rfl, rfl, rfl⟩

theorem stepOutcome_marks_bounds (exec : TestCase → Except String Outcome)
    (tc : TestCase) (hm : 0 ≤ tc.marks) :
    0 ≤ (stepOutcome exec tc).marksAwarded ∧
      (stepOutcome exec tc).marksAwarded ≤ tc.marks := by
  cases hx : exec tc with
  | ok r =>
      simp only [stepOutcome, hx]
      unfold gradeTestCase
      split_ifs <;> simp [hm, faultResult]
  | error m => simp [stepOutcome, hx, faultResult, hm]

theorem scorePct_bounds (total obtained : ℚ) (h0 : 0 ≤ obtained)
    (hle : obtained ≤ total) :
    0 ≤ scorePct total obtained ∧ scorePct total obtained ≤ 100 := by
  unfold scorePct
  split_ifs with hpos
  · have hdiv1 : obtained / total ≤ 1 := (div_le_one hpos).mpr hle
    have hdiv0 : 0 ≤ obtained / total := div_nonneg h0 (le_of_lt hpos)
    have hx0 : (0:ℚ) ≤ obtained / total * 100 := by nlinarith
    have hx1 : obtained / total * 100 ≤ 100 := by nlinarith
    constructor
    · rw [round_eq]
      refine Int.le_floor.mpr ?_
      push_cast
      linarith
    · rw [round_eq]
      have hflt : (⌊obtained / total * 100 + 1/2⌋ : ℤ) < 101 := by
        refine Int.floor_lt.mpr ?_
        push_cast
        linarith
      omega
  · simp

/-- C2 counterexample: when the invoker reports an error and the measured
wall time exceeds the limit, `executeCode` returns status `error`, not the
claimed forced `timeout`. -/
theorem claim2_error_beats_timeout :
    2000 < 2001 ∧
    (executeCode "python" lateErrData 2001 2000).status = Status.error ∧
    (executeCode "python" lateErrData 2001 2000).status ≠ Status.timeout := by
  decide

/-- C2 (amended): if the measured wall time exceeds `timeLimitMs` AND the
invoker reported no error, the outcome of `executeCode` for every
supported language is `timeout` with the fixed "Time limit exceeded"
message, and such a test case is graded `time_limit_exceeded` (never
`failed` or `passed`, even if the late output matches); when the invoker
does report an error, the error branch takes precedence. -/
theorem claim2_timeout_when_no_error (language : String) (data : InvokerData)
    (elapsed timeLimit : ℕ)
    (hlang : language = "python" ∨ language = "c" ∨ language = "cpp" ∨
      language = "java" ∨ language = "javascript")
    (hnoerr : data.error = "") (hlate : timeLimit < elapsed) :
    executeCode language data elapsed timeLimit
      = { status := Status.timeout, output := data.output,
          error := "Time limit exceeded", executionTime := elapsed,
          memoryUsed := 0 } ∧
    ∀ tc : TestCase,
      (gradeTestCase tc (executeCode language data elapsed timeLimit)).status
        = Verdict.time_limit_exceeded := by
  have hout : executeCode language data elapsed timeLimit
      = { status := Status.timeout, output := data.output,
          error := "Time limit exceeded", executionTime := elapsed,
          memoryUsed := 0 } := by
    rcases hlang with h | h | h | h | h <;> subst h <;>
      simp [executeCode, hnoerr, hlate]
  refine ⟨hout, fun tc => ?_⟩
  rw [hout]
  simp [gradeTestCase]

/-- C2 witness: a concrete late, error-free python run is returned as
`timeout` and graded `time_limit_exceeded`. -/
theorem claim2_timeout_witness :
    executeCode "python" lateOkData 2001 2000
      = { status := Status.timeout, output := ['5'],
          error := "Time limit exceeded", executionTime := 2001,
          memoryUsed := 0 } ∧
    ∀ tc : TestCase,
      (gradeTestCase tc (executeCode "python" lateOkData 2001 2000)).status
        = Verdict.time_limit_exceeded :=
  claim2_timeout_when_no_error "python" lateOkData 2001 2000 (Or.inl rfl)
    rfl (by decide)

/-- C9 (confirmed): every branch of `executeCode` returns `memoryUsed = 0`;
consequently, for any submission graded through dispatcher outcomes
produced by `executeCode`, every persisted test case result has
`memoryUsed = 0` and the submission's aggregated `memoryUsed` (the running
max across test cases) is 0. -/
theorem claim9_memoryUsed_always_zero (exec : TestCase → Except String Outcome)
    (hexec : ∀ tc r, exec tc = Except.ok r →
      ∃ lang data elapsed tl, r = executeCode lang data elapsed tl)
    (tcs : List TestCase) (s : Submission) :
    (∀ lang data elapsed tl, (executeCode lang data elapsed tl).memoryUsed = 0) ∧
    (∀ r ∈ (processSubmission (Except.ok ()) exec tcs s).testCaseResults,
      r.memoryUsed = 0) ∧
    (processSubmission (Except.ok ()) exec tcs s).memoryUsed = 0 := by
  have hz : ∀ tc ∈ tcs, ∀ r, exec tc = Except.ok r → r.memoryUsed = 0 := by
    intro tc _ r hr
    obtain ⟨lang, data, elapsed, tl, heq⟩ := hexec tc r hr
    rw [heq]
    exact executeCode_memoryUsed lang data elapsed tl
  obtain ⟨-, hres, hmem, -⟩ := processSubmission_ok_fields exec tcs s
  refine ⟨fun lang data elapsed tl => executeCode_memoryUsed lang data elapsed tl,
    ?_, ?_⟩
  · intro r hr
    rw [hres, core_results] at hr
    obtain ⟨tc, htc, rfl⟩ := List.mem_map.mp hr
    cases hx : exec tc with
    | ok ro =>
        simp only [stepOutcome, hx, gradeTestCase_memoryUsed]
        exact hz tc htc ro hx
    | error m => simp [stepOutcome, hx, faultResult]
  · rw [hmem]
    unfold processSubmissionCore
    rw [gradeFold_memory_zero exec tcs hz emptyGradeAcc]
    rfl

/-- C9 witness: a concrete run through `c9Exec` (which relays a real
`executeCode` outcome) yields zero memory everywhere. -/
theorem claim9_memoryUsed_witness :
    (∀ lang data elapsed tl, (executeCode lang data elapsed tl).memoryUsed = 0) ∧
    (∀ r ∈ (processSubmission (Except.ok ()) c9Exec [c8TcA]
        initSubmission).testCaseResults, r.memoryUsed = 0) ∧
    (processSubmission (Except.ok ()) c9Exec [c8TcA] initSubmission).memoryUsed
      = 0 :=
  claim9_memoryUsed_always_zero c9Exec
    (fun _ _r hr => ⟨"python", { output := [], error := "" }, 0, 1000,
      (Except.ok.inj hr).symm⟩)
    [c8TcA] initSubmission

/-- C8 (confirmed): if executing one test case throws an unexpected fault,
the grading loop records exactly that test case as `runtime_error` with
zero marks awarded, its `maxMarks` still entering the `totalMarks`
denominator, and continues with the remaining test cases (one result per
test case, the non-faulting ones classified normally); a fault outside the
per-test-case loop instead moves the whole submission to status `error`
with the fault message retained and no results recorded. -/
theorem claim8_fault_isolation (exec : TestCase → Except String Outcome)
    (tcs : List TestCase) (i : ℕ) (msg : String)
    (hi : i < tcs.length) (hf : exec tcs[i] = Except.error msg) :
    (processSubmissionCore exec tcs).results.length = tcs.length ∧
    (processSubmissionCore exec tcs).results[i]?
      = some (faultResult tcs[i] msg) ∧
    (faultResult tcs[i] msg).status = Verdict.runtime_error ∧
    (faultResult tcs[i] msg).marksAwarded = 0 ∧
    (faultResult tcs[i] msg).maxMarks = tcs[i].marks ∧
    (processSubmissionCore exec tcs).totalMarks
      = (tcs.map (fun tc => tc.marks)).sum ∧
    (∀ j : ℕ, ∀ hj : j < tcs.length, ∀ r : Outcome, exec tcs[j] = Except.ok r →
      (processSubmissionCore exec tcs).results[j]?
        = some (gradeTestCase tcs[j] r)) ∧
    (∀ m : String, ∀ s : Submission,
      (processSubmission (Except.error m) exec tcs s).status = SubStatus.error ∧
      (processSubmission (Except.error m) exec tcs s).compilationError = m ∧
      (processSubmission (Except.error m) exec tcs s).testCaseResults
        = s.testCaseResults) := by
  refine ⟨?_, ?_, rfl, rfl, rfl, core_totalMarks exec tcs, ?_, ?_⟩
  · rw [core_results, List.length_map]
  · rw [core_results, List.getElem?_map, List.getElem?_eq_getElem hi]
    simp [stepOutcome, hf]
  · intro j hj r hr
    rw [core_results, List.getElem?_map, List.getElem?_eq_getElem hj]
    simp [stepOutcome, hr]
  · intro m s
    refine ⟨rfl, rfl, rfl⟩

/-- C8 witness: with two test cases where the first throws and the second
resolves, the first is recorded as `runtime_error` and the second is
graded normally; a setup fault turns a fresh submission into status
`error` carrying the message. -/
theorem claim8_fault_isolation_witness :
    (processSubmissionCore c8Exec [c8TcA, c8TcB]).results.length = 2 ∧
    (processSubmissionCore c8Exec [c8TcA, c8TcB]).results[0]?
      = some (faultResult c8TcA "infra fault") ∧
    (processSubmissionCore c8Exec [c8TcA, c8TcB]).results[1]?
      = some (gradeTestCase c8TcB c8Outcome) ∧
    (processSubmission (Except.error "db down") c8Exec [c8TcA, c8TcB]
        initSubmission).status = SubStatus.error ∧
    (processSubmission (Except.error "db down") c8Exec [c8TcA, c8TcB]
        initSubmission).compilationError = "db down" := by
  have h := claim8_fault_isolation c8Exec [c8TcA, c8TcB] 0 "infra fault"
    (by decide) rfl
  refine ⟨h.1, h.2.1, ?_, (h.2.2.2.2.2.2.2 "db down" initSubmission).1,
    (h.2.2.2.2.2.2.2 "db down" initSubmission).2.1⟩
  exact h.2.2.2.2.2.2.1 1 (by decide) c8Outcome rfl

/-- C4 (confirmed): the persisted `scorePercentage` equals
`round(obtainedMarks / totalMarks * 100)` when the accumulated
`totalMarks` is positive and exactly 0 when it is 0; with every test
case's marks non-negative it always lies between 0 and 100. -/
theorem claim4_score_percentage (exec : TestCase → Except String Outcome)
    (tcs : List TestCase) (s : Submission)
    (hm : ∀ tc ∈ tcs, 0 ≤ tc.marks) :
    ((processSubmissionCore exec tcs).totalMarks = 0 →
      (processSubmission (Except.ok ()) exec tcs s).scorePercentage = 0) ∧
    (0 < (processSubmissionCore exec tcs).totalMarks →
      (processSubmission (Except.ok ()) exec tcs s).scorePercentage
        = round ((processSubmissionCore exec tcs).obtainedMarks
            / (processSubmissionCore exec tcs).totalMarks * 100)) ∧
    0 ≤ (processSubmission (Except.ok ()) exec tcs s).scorePercentage ∧
    (processSubmission (Except.ok ()) exec tcs s).scorePercentage ≤ 100 := by
  obtain ⟨-, -, -, hsp⟩ := processSubmission_ok_fields exec tcs s
  have h0 : 0 ≤ (processSubmissionCore exec tcs).obtainedMarks := by
    rw [core_obtainedMarks]
    refine List.sum_nonneg ?_
    intro x hx
    obtain ⟨tc, htc, rfl⟩ := List.mem_map.mp hx
    exact (stepOutcome_marks_bounds exec tc (hm tc htc)).1
  have hle : (processSubmissionCore exec tcs).obtainedMarks
      ≤ (processSubmissionCore exec tcs).totalMarks := by
    rw [core_obtainedMarks, core_totalMarks]
    refine List.sum_le_sum ?_
    intro tc htc
    exact (stepOutcome_marks_bounds exec tc (hm tc htc)).2
  obtain ⟨hge, hle100⟩ := scorePct_bounds _ _ h0 hle
  refine ⟨?_, ?_, ?_, ?_⟩
  · intro hz
    rw [hsp]
    unfold scorePct
    rw [hz]
    simp
  · intro hpos
    rw [hsp]
    unfold scorePct
    rw [if_pos hpos]
  · rw [hsp]; exact hge
  · rw [hsp]; exact hle100

/-- C4 witness: a fully correct run on one 5-mark test case scores within
the bounds (and exactly `round(5/5*100)`). -/
theorem claim4_score_percentage_witness :
    0 ≤ (processSubmission (Except.ok ()) c4Exec [c8TcA]
      initSubmission).scorePercentage ∧
    (processSubmission (Except.ok ()) c4Exec [c8TcA]
      initSubmission).scorePercentage ≤ 100 :=
  (claim4_score_percentage c4Exec [c8TcA] initSubmission (by decide)).2.2

theorem charSplit_ne_nil : ∀ l : Str, charSplit l ≠ [] := by
  intro l
  match l with
  | [] => simp [charSplit]
  | c :: rest =>
      simp only [charSplit]
      split
      · simp
      · split <;> simp

theorem joinLines_charSplit : ∀ l : Str, joinLines (charSplit l) = l := by
  intro l
  induction l with
  | nil => rfl
  | cons c rest ih =>
      simp only [charSplit]
      split_ifs with hc
      · subst hc
        cases h : charSplit rest with
        | nil => exact absurd h (charSplit_ne_nil rest)
        | cons s ss =>
            rw [h] at ih
            simp only [joinLines]
            rw [ih]
            rfl
      · cases h : charSplit rest with
        | nil => exact absurd h (charSplit_ne_nil rest)
        | cons s ss =>
            rw [h] at ih
            cases ss with
            | nil =>
                simp only [joinLines] at ih ⊢
                rw [ih]
            | cons t ts =>
                simp only [joinLines] at ih ⊢
                rw [List.cons_append, ih]

theorem head_of_append_left {α : Type} (l₁ l₂ : List α) (h : l₁ ≠ []) :
    (l₁ ++ l₂).head? = l₁.head? := by
  cases l₁ with
  | nil => exact absurd rfl h
  | cons a rest => rfl

theorem dropWhile_head_false (p : Char → Bool) :
    ∀ l : Str, ∀ c : Char, (l.dropWhile p).head? = some c → p c = false := by
  intro l
  induction l with
  | nil => intro c h; simp at h
  | cons a rest ih =>
      intro c h
      rw [List.dropWhile_cons] at h
      by_cases ha : p a
      · rw [if_pos ha] at h
        exact ih c h
      · rw [if_neg ha] at h
        simp only [List.head?_cons, Option.some.injEq] at h
        subst h
        exact Bool.eq_false_iff.mpr ha

theorem jsTrim_last_not_ws (s : Str) (c : Char)
    (h : (jsTrim s).getLast? = some c) : jsWhitespace c = false := by
  unfold jsTrim at h
  rw [List.getLast?_reverse] at h
  exact dropWhile_head_false jsWhitespace _ c h

theorem jsTrim_head_not_ws (s : Str) (c : Char)
    (h : (jsTrim s).head? = some c) : jsWhitespace c = false := by
  have hsplit : (s.dropWhile jsWhitespace).reverse.takeWhile jsWhitespace
      ++ (s.dropWhile jsWhitespace).reverse.dropWhile jsWhitespace
      = (s.dropWhile jsWhitespace).reverse :=
    List.takeWhile_append_dropWhile jsWhitespace _
  have ht2 : s.dropWhile jsWhitespace
      = jsTrim s
        ++ ((s.dropWhile jsWhitespace).reverse.takeWhile jsWhitespace).reverse := by
    have h2 := congrArg List.reverse hsplit
    rw [List.reverse_append, List.reverse_reverse] at h2
    exact h2.symm
  have hne : jsTrim s ≠ [] := by
    intro hnil
    rw [hnil] at h
    exact Option.noConfusion h
  have hth : (s.dropWhile jsWhitespace).head? = some c := by
    rw [ht2, head_of_append_left _ _ hne]
    exact h
  exact dropWhile_head_false jsWhitespace s c hth

/-- C10 (confirmed): the python branch trims the raw test case input
before splitting it into the `input()` preamble lines, so the content
deliverable to the submitted program is exactly the trimmed input —
leading/trailing whitespace, including edge blank lines, is never
delivered (the trimmed string starts and ends with non-whitespace when
non-empty) — and once the prepared lines are exhausted every further
`input()` call returns the empty string. -/
theorem claim10_python_input_trimmed (input : Option Str) :
    joinLines (pythonInputLines input) = jsTrim (input.getD []) ∧
    (∀ c : Char, (jsTrim (input.getD [])).head? = some c →
      jsWhitespace c = false) ∧
    (∀ c : Char, (jsTrim (input.getD [])).getLast? = some c →
      jsWhitespace c = false) ∧
    (∀ k : ℕ, (pythonInputLines input).length ≤ k → simInput input k = []) := by
  refine ⟨joinLines_charSplit _, fun c hc => jsTrim_head_not_ws _ c hc,
    fun c hc => jsTrim_last_not_ws _ c hc, fun k hk => ?_⟩
  unfold simInput
  exact List.getD_eq_default _ _ hk

/-- C10 witness: on a concrete input with a leading blank line and
trailing whitespace, the deliverable content is the trimmed input and an
exhausted `input()` returns the empty string. -/
theorem claim10_python_input_witness :
    joinLines (pythonInputLines (some c10Input)) = jsTrim c10Input ∧
    simInput (some c10Input) 9 = [] :=
  ⟨(claim10_python_input_trimmed (some c10Input)).1,
   (claim10_python_input_trimmed (some c10Input)).2.2.2 9 (by decide)⟩

theorem countSubmissions_create (db : DB) (cid qid uid : String) :
    countSubmissions
      { db with submissions := db.submissions ++ [mkSubRecord cid qid uid] }
      cid qid uid
      = countSubmissions db cid qid uid + 1 := by
  simp [countSubmissions, mkSubRecord, List.filter_append]

/-- C5 counterexample: at `now = endTime` (outside the claimed
`[startTime, endTime)` window) the route still creates the submission
record instead of aborting. -/
theorem claim5_endTime_boundary :
    ¬ (100 < c5Contest.endTime) ∧
    (handleSubmit c5Req c5Db 100).1 = SubmitOutcome.created ∧
    (handleSubmit c5Req c5Db 100).2.submissions.length
      = c5Db.submissions.length + 1 := by
  decide

/-- C5 (amended): a submission record is created iff all checks pass,
where the accessibility window is closed at `endTime` (only
`endTime < now` is rejected), and the checks run in source order
(contest exists, question exists within the contest, contest active and
not past `endTime`, contest started, language allowed, prior attempt
count strictly below `maxAttempts`).  Any violation aborts with an error
response and leaves the database unchanged, and the per-(user, question)
submission count never exceeds the contest's `maxAttempts`. -/
theorem claim5_creation_checks (req : SubmitReq) (db : DB) (now : ℤ) :
    ((handleSubmit req db now).1 = SubmitOutcome.created ↔
      (req.contestId ≠ "" ∧ req.questionId ≠ "" ∧ req.code ≠ "" ∧
        req.language ≠ "" ∧
        ∃ contest, findContest db req.contestId = some contest ∧
          (∃ q, findQuestion contest req.questionId = some q) ∧
          contest.isActive = true ∧ ¬(contest.endTime < now) ∧
          ¬(now < contest.startTime) ∧
          req.language ∈ contest.allowedLanguages ∧
          countSubmissions db req.contestId req.questionId req.userId
            < contest.maxAttempts)) ∧
    ((handleSubmit req db now).1 ≠ SubmitOutcome.created →
      (handleSubmit req db now).2 = db) ∧
    (∀ contest, findContest db req.contestId = some contest →
      countSubmissions db req.contestId req.questionId req.userId
        ≤ contest.maxAttempts →
      countSubmissions (handleSubmit req db now).2 req.contestId
        req.questionId req.userId ≤ contest.maxAttempts) := by
  by_cases hfields : req.contestId = "" ∨ req.questionId = "" ∨
      req.code = "" ∨ req.language = ""
  · have heq : handleSubmit req db now
        = (SubmitOutcome.badRequest "All fields are required", db) := by
      simp only [handleSubmit, if_pos hfields]
    refine ⟨?_, ?_, ?_⟩
    · rw [heq]
      constructor
      · intro h; exact absurd h (by simp)
      · rintro ⟨h1, h2, h3, h4, -⟩
        rcases hfields with h | h | h | h
        · exact absurd h h1
        · exact absurd h h2
        · exact absurd h h3
        · exact absurd h h4
    · intro _; rw [heq]
    · intro contest _ hcount; rw [heq]; exact hcount
  · cases hfc : findContest db req.contestId with
    | none =>
        have heq : handleSubmit req db now
            = (SubmitOutcome.notFound "Contest not found", db) := by
          simp only [handleSubmit, if_neg hfields, hfc]
        refine ⟨?_, ?_, ?_⟩
        · rw [heq]
          constructor
          · intro h; exact absurd h (by simp)
          · rintro ⟨-, -, -, -, contest, hfc2, -⟩
            exact Option.noConfusion hfc2
        · intro _; rw [heq]
        · intro contest hfc2 _
          exact absurd hfc2 (by simp)
    | some contest =>
        cases hfq : findQuestion contest req.questionId with
        | none =>
            have heq : handleSubmit req db now
                = (SubmitOutcome.notFound "Question not found", db) := by
              simp only [handleSubmit, if_neg hfields, hfc, hfq]
            refine ⟨?_, ?_, ?_⟩
            · rw [heq]
              constructor
              · intro h; exact absurd h (by simp)
              · rintro ⟨-, -, -, -, contest2, hfc2, ⟨q, hfq2⟩, -⟩
                injection hfc2 with hc2
                subst hc2
                rw [hfq] at hfq2
                exact Option.noConfusion hfq2
            · intro _; rw [heq]
            · intro contest2 _ hcount; rw [heq]; exact hcount
        | some q =>
            by_cases hacc : ¬contest.isActive ∨ contest.endTime < now
            · have heq : handleSubmit req db now
                  = (SubmitOutcome.forbidden "Contest is not accessible", db) := by
                simp only [handleSubmit, if_neg hfields, hfc, hfq, if_pos hacc]
              refine ⟨?_, ?_, ?_⟩
              · rw [heq]
                constructor
                · intro h; exact absurd h (by simp)
                · rintro ⟨-, -, -, -, contest2, hfc2, -, hact, hend, -⟩
                  injection hfc2 with hc2
                  subst hc2
                  rcases hacc with h | h
                  · exact (h hact).elim
                  · exact (hend h).elim
              · intro _; rw [heq]
              · intro contest2 _ hcount; rw [heq]; exact hcount
            · by_cases hstart : now < contest.startTime
              · have heq : handleSubmit req db now
                    = (SubmitOutcome.forbidden "Contest has not started yet", db) := by
                  simp only [handleSubmit, if_neg hfields, hfc, hfq,
                    if_neg hacc, if_pos hstart]
                refine ⟨?_, ?_, ?_⟩
                · rw [heq]
                  constructor
                  · intro h; exact absurd h (by simp)
                  · rintro ⟨-, -, -, -, contest2, hfc2, -, -, -, hst, -⟩
                    injection hfc2 with hc2
                    subst hc2
                    exact (hst hstart).elim
                · intro _; rw [heq]
                · intro contest2 _ hcount; rw [heq]; exact hcount
              · by_cases hlang : ¬ req.language ∈ contest.allowedLanguages
                · have heq : handleSubmit req db now
                      = (SubmitOutcome.badRequest
                          "Programming language not allowed for this contest", db) := by
                    simp only [handleSubmit, if_neg hfields, hfc, hfq,
                      if_neg hacc, if_neg hstart, if_pos hlang]
                  refine ⟨?_, ?_, ?_⟩
                  · rw [heq]
                    constructor
                    · intro h; exact absurd h (by simp)
                    · rintro ⟨-, -, -, -, contest2, hfc2, -, -, -, -, hl, -⟩
                      injection hfc2 with hc2
                      subst hc2
                      exact (hlang hl).elim
                  · intro _; rw [heq]
                  · intro contest2 _ hcount; rw [heq]; exact hcount
                · by_cases hatt : contest.maxAttempts ≤
                      countSubmissions db req.contestId req.questionId req.userId
                  · have heq : handleSubmit req db now
                        = (SubmitOutcome.forbidden
                            "Maximum submission attempts reached", db) := by
                      simp only [handleSubmit, if_neg hfields, hfc, hfq,
                        if_neg hacc, if_neg hstart, if_neg hlang, if_pos hatt]
                    refine ⟨?_, ?_, ?_⟩
                    · rw [heq]
                      constructor
                      · intro h; exact absurd h (by simp)
                      · rintro ⟨-, -, -, -, contest2, hfc2, -, -, -, -, -, hcnt⟩
                        injection hfc2 with hc2
                        subst hc2
                        exact absurd hcnt (not_lt.mpr hatt)
                    · intro _; rw [heq]
                    · intro contest2 _ hcount; rw [heq]; exact hcount
                  · have heq : handleSubmit req db now
                        = (SubmitOutcome.created,
                            { db with submissions := db.submissions ++
                                [mkSubRecord req.contestId req.questionId req.userId] }) := by
                      simp only [handleSubmit, if_neg hfields, hfc, hfq,
                        if_neg hacc, if_neg hstart, if_neg hlang, if_neg hatt]
                    push_neg at hfields
                    obtain ⟨h1, h2, h3, h4⟩ := hfields
                    push_neg at hacc
                    refine ⟨?_, ?_, ?_⟩
                    · rw [heq]
                      constructor
                      · intro _
                        exact ⟨h1, h2, h3, h4, contest, rfl, ⟨q, hfq⟩,
                          hacc.1, not_lt.mpr hacc.2, hstart,
                          not_not.mp hlang, lt_of_not_le hatt⟩
                      · intro _; rfl
                    · intro hne
                      rw [heq] at hne
                      exact absurd rfl hne
                    · intro contest2 hfc2 hcount
                      injection hfc2 with hc2
                      subst hc2
                      rw [heq]
                      have hc := countSubmissions_create db req.contestId
                        req.questionId req.userId
                      rw [hc]
                      have := lt_of_not_le hatt
                      omega

/-- C5 witness: in a fresh database with `maxAttempts = 2`, a valid
request at time 50 is created and the attempt count stays within the
cap. -/
theorem claim5_creation_witness :
    (handleSubmit c5Req c5Db 50).1 = SubmitOutcome.created ∧
    countSubmissions (handleSubmit c5Req c5Db 50).2 "c1" "q1" "u1"
      ≤ c5Contest.maxAttempts := by
  have h := claim5_creation_checks c5Req c5Db 50
  refine ⟨?_, ?_⟩
  · exact h.1.mpr ⟨by decide, by decide, by decide, by decide, c5Contest, rfl,
      ⟨{ id := "q1", timeLimit := 2000, totalMarks := 5 }, rfl⟩, rfl,
      by decide, by decide, by decide, by decide⟩
  · exact h.2.2 c5Contest rfl (by decide)

theorem amFind_amSet_self {α : Type} (k : String) (v : α) :
    ∀ m : List (String × α), amFind k (amSet k v m) = some v := by
  intro m
  induction m with
  | nil => simp [amSet, amFind]
  | cons p rest ih =>
      obtain ⟨k2, v2⟩ := p
      by_cases hk : k2 = k
      · simp [amSet, amFind, hk]
      · simp [amSet, amFind, hk, ih]

theorem amFind_amSet_ne {α : Type} (k k2 : String) (v : α) (hne : k2 ≠ k) :
    ∀ m : List (String × α), amFind k2 (amSet k v m) = amFind k2 m := by
  intro m
  have hks : ¬ k = k2 := fun h => hne h.symm
  induction m with
  | nil => simp [amSet, amFind, hks]
  | cons p rest ih =>
      obtain ⟨k3, v3⟩ := p
      by_cases hk : k3 = k
      · subst hk
        simp [amSet, amFind, hks]
      · simp [amSet, amFind, hk, ih]

theorem suStep_userId (us : UserScore) (s : LBSubmission) :
    (suStep us s).userId = us.userId := by
  simp only [suStep]
  split_ifs <;> rfl

theorem foldl_suStep_userId (P : List LBSubmission) :
    ∀ us : UserScore, (P.foldl suStep us).userId = us.userId := by
  induction P with
  | nil => intro us; rfl
  | cons s rest ih => intro us; rw [List.foldl_cons, ih, suStep_userId]

theorem subsFor_cons (u : String) (s : LBSubmission) (rest : List LBSubmission) :
    subsFor u (s :: rest)
      = if s.userId = u then s :: subsFor u rest else subsFor u rest := by
  by_cases h : s.userId = u <;> simp [subsFor, List.filter_cons, h]

theorem buildScores_group (subs : List LBSubmission) :
    ∀ (m : List (String × UserScore)) (u : String),
      amFind u (subs.foldl lbStep m) = suFoldOpt (amFind u m) (subsFor u subs) := by
  induction subs with
  | nil => intro m u; rfl
  | cons s rest ih =>
      intro m u
      rw [List.foldl_cons, ih, subsFor_cons]
      by_cases hu : s.userId = u
      · rw [if_pos hu]
        have hset : amFind u (lbStep m s)
            = some (suStep ((amFind u m).getD (freshEntry s)) s) := by
          unfold lbStep
          rw [← hu]
          exact amFind_amSet_self s.userId _ m
        rw [hset]
        subst hu
        rfl
      · rw [if_neg hu]
        have hset : amFind u (lbStep m s) = amFind u m := by
          unfold lbStep
          exact amFind_amSet_ne s.userId u _ (fun h => hu h.symm) m
        rw [hset]

theorem foldr_max_nonneg (xs : List ℚ) : 0 ≤ xs.foldr max 0 := by
  induction xs with
  | nil => exact le_refl 0
  | cons x xs ih => exact le_trans ih (le_max_right x _)

theorem foldr_max_append_single (xs : List ℚ) (m : ℚ) :
    (xs ++ [m]).foldr max 0 = max (xs.foldr max 0) m := by
  induction xs with
  | nil => simp [max_comm]
  | cons x xs ih => simp [List.foldr_cons, ih, max_assoc]

theorem foldr_max_mem (xs : List ℚ) (h0 : ∀ m ∈ xs, 0 ≤ m) (hne : xs ≠ []) :
    xs.foldr max 0 ∈ xs := by
  induction xs with
  | nil => exact absurd rfl hne
  | cons x xs ih =>
      cases xs with
      | nil =>
          simp [max_eq_left (h0 x (by simp))]
      | cons y ys =>
          have hmem := ih (fun m hm => h0 m (by simp [hm])) (by simp)
          rcases max_choice x ((y :: ys).foldr max 0) with h | h
      
          · rw [List.foldr_cons, h]
            exact List.mem_cons_self x _
          · rw [List.foldr_cons, h]
            exact List.mem_cons_of_mem x hmem

theorem marksFor_append_single (q : String) (P : List LBSubmission)
    (s : LBSubmission) :
    marksFor q (P ++ [s])
      = marksFor q P ++ (if s.questionId = q then [s.marksAwarded] else []) := by
  by_cases h : s.questionId = q <;>
    simp [marksFor, List.filter_append, List.filter_cons, h]

theorem foldr_max_init_nonneg (xs : List ℚ) (a : ℚ) (ha : 0 ≤ a) :
    xs.foldr max a = max (xs.foldr max 0) a := by
  induction xs with
  | nil => simp [max_eq_right ha]
  | cons x xs ih => simp [List.foldr_cons, ih, max_assoc]

theorem bestOf_append_single (P : List LBSubmission) (s : LBSubmission)
    (q : String) :
    bestOf (P ++ [s]) q
      = if s.questionId = q then max (bestOf P q) s.marksAwarded
        else bestOf P q := by
  by_cases h : s.questionId = q
  · rw [if_pos h]
    unfold bestOf
    rw [marksFor_append_single, if_pos h, List.foldr_append]
    simp only [List.foldr_cons, List.foldr_nil]
    rw [foldr_max_init_nonneg _ _ (le_max_right s.marksAwarded 0),
      ← max_assoc]
    exact max_eq_left
      (le_trans (foldr_max_nonneg _) (le_max_left _ s.marksAwarded))
  · rw [if_neg h]
    unfold bestOf
    rw [marksFor_append_single, if_neg h, List.append_nil]

theorem mem_qidsOf (P : List LBSubmission) (q : String) :
    q ∈ qidsOf P ↔ ∃ s ∈ P, s.questionId = q := by
  simp [qidsOf, List.mem_toFinset, List.mem_map]

theorem qidsOf_append_single (P : List LBSubmission) (s : LBSubmission) :
    qidsOf (P ++ [s]) = insert s.questionId (qidsOf P) := by
  ext x
  simp [qidsOf, or_comm]

theorem bestOf_not_attempted (P : List LBSubmission) (q : String)
    (h : q ∉ qidsOf P) : bestOf P q = 0 := by
  have hnone : marksFor q P = [] := by
    unfold marksFor
    have : P.filter (fun s => s.questionId == q) = [] := by
      rw [List.filter_eq_nil_iff]
      intro s hs
      simp only [beq_iff_eq]
      intro he
      exact h ((mem_qidsOf P q).mpr ⟨s, hs, he⟩)
    rw [this]
    rfl
  simp [bestOf, hnone]

theorem bestOf_nonneg (P : List LBSubmission) (q : String) :
    0 ≤ bestOf P q :=
  foldr_max_nonneg _

theorem suStep_questionScores (us : UserScore) (s : LBSubmission) :
    (suStep us s).questionScores
      = if (amFind s.questionId us.questionScores).getD 0 < s.marksAwarded
        then amSet s.questionId s.marksAwarded us.questionScores
        else us.questionScores := by
  simp only [suStep]
  split_ifs <;> rfl

theorem suStep_totalScore (us : UserScore) (s : LBSubmission) :
    (suStep us s).totalScore
      = if (amFind s.questionId us.questionScores).getD 0 < s.marksAwarded
        then us.totalScore
          + (s.marksAwarded - (amFind s.questionId us.questionScores).getD 0)
        else us.totalScore := by
  simp only [suStep]
  split_ifs <;> rfl

theorem suStep_problemsSolved (us : UserScore) (s : LBSubmission) :
    (suStep us s).problemsSolved
      = if (amFind s.questionId us.questionScores).getD 0 < s.marksAwarded
        then us.problemsSolved
          + (if (amFind s.questionId us.questionScores).getD 0 = 0 ∧
              0 < s.marksAwarded then 1 else 0)
        else us.problemsSolved := by
  simp only [suStep]
  split_ifs <;> rfl

theorem suStep_totalTime (us : UserScore) (s : LBSubmission) :
    (suStep us s).totalTime = us.totalTime + s.executionTime := by
  simp only [suStep]
  split_ifs <;> rfl

theorem lbTimeSpec_append (P : List LBSubmission) (s : LBSubmission) :
    lbTimeSpec (P ++ [s]) = lbTimeSpec P + s.executionTime := by
  simp [lbTimeSpec]

theorem bestOf_append_congr (P : List LBSubmission) (s : LBSubmission)
    (q : String) (hne : q ≠ s.questionId) :
    bestOf (P ++ [s]) q = bestOf P q := by
  rw [bestOf_append_single, if_neg (fun h => hne h.symm)]

theorem lbTotalScoreSpec_append (P : List LBSubmission) (s : LBSubmission)
    (hs : 0 ≤ s.marksAwarded) :
    lbTotalScoreSpec (P ++ [s])
      = lbTotalScoreSpec P
        + (if bestOf P s.questionId < s.marksAwarded
           then s.marksAwarded - bestOf P s.questionId else 0) := by
  unfold lbTotalScoreSpec
  rw [qidsOf_append_single]
  by_cases hmem : s.questionId ∈ qidsOf P
  · rw [Finset.insert_eq_self.mpr hmem]
    rw [← Finset.add_sum_erase _ _ hmem, ← Finset.add_sum_erase _
      (fun q => bestOf P q) hmem]
    have herase : ∑ q ∈ (qidsOf P).erase s.questionId, bestOf (P ++ [s]) q
        = ∑ q ∈ (qidsOf P).erase s.questionId, bestOf P q := by
      refine Finset.sum_congr rfl ?_
      intro q hqe
      exact bestOf_append_congr P s q (Finset.mem_erase.mp hqe).1
    rw [herase, bestOf_append_single, if_pos rfl]
    by_cases himp : bestOf P s.questionId < s.marksAwarded
    · rw [if_pos himp, max_eq_right (le_of_lt himp)]
      ring
    · rw [if_neg himp, max_eq_left (not_lt.mp himp)]
      ring
  · rw [Finset.sum_insert hmem]
    have hzero : bestOf P s.questionId = 0 := bestOf_not_attempted P _ hmem
    have hsum : ∑ q ∈ qidsOf P, bestOf (P ++ [s]) q
        = ∑ q ∈ qidsOf P, bestOf P q := by
      refine Finset.sum_congr rfl ?_
      intro q hqe
      refine bestOf_append_congr P s q ?_
      intro heq
      rw [heq] at hqe
      exact hmem hqe
    rw [hsum, bestOf_append_single, if_pos rfl, hzero, max_eq_right hs]
    by_cases himp : (0:ℚ) < s.marksAwarded
    · rw [if_pos himp]
      ring
    · rw [if_neg himp]
      have hm0 : s.marksAwarded = 0 := le_antisymm (not_lt.mp himp) hs
      rw [hm0]
      ring

theorem lbSolvedSpec_append (P : List LBSubmission) (s : LBSubmission)
    (hs : 0 ≤ s.marksAwarded) :
    lbSolvedSpec (P ++ [s])
      = lbSolvedSpec P
        + (if bestOf P s.questionId < s.marksAwarded ∧
            bestOf P s.questionId = 0 ∧ 0 < s.marksAwarded then 1 else 0) := by
  unfold lbSolvedSpec
  rw [qidsOf_append_single]
  by_cases hmem : s.questionId ∈ qidsOf P
  · rw [Finset.insert_eq_self.mpr hmem]
    rcases lt_or_eq_of_le (bestOf_nonneg P s.questionId) with hpos | hzero
    · have hcong : (qidsOf P).filter (fun q => 0 < bestOf (P ++ [s]) q)
          = (qidsOf P).filter (fun q => 0 < bestOf P q) := by
        refine Finset.filter_congr ?_
        intro x _
        by_cases hxq : x = s.questionId
        · subst hxq
          rw [bestOf_append_single, if_pos rfl]
          constructor
          · intro _; exact hpos
          · intro _; exact lt_of_lt_of_le hpos (le_max_left _ _)
        · rw [bestOf_append_congr P s x hxq]
      rw [hcong]
      have hcond : ¬(bestOf P s.questionId < s.marksAwarded ∧
          bestOf P s.questionId = 0 ∧ 0 < s.marksAwarded) := by
        rintro ⟨-, hz, -⟩
        rw [hz] at hpos
        exact lt_irrefl 0 hpos
      rw [if_neg hcond, add_zero]
    · have hz : bestOf P s.questionId = 0 := hzero.symm
      by_cases hm : 0 < s.marksAwarded
      · have hf'q0 : bestOf (P ++ [s]) s.questionId = s.marksAwarded := by
          rw [bestOf_append_single, if_pos rfl, hz, max_eq_right hs]
        have hset : (qidsOf P).filter (fun q => 0 < bestOf (P ++ [s]) q)
            = insert s.questionId
                ((qidsOf P).filter (fun q => 0 < bestOf P q)) := by
          ext x
          simp only [Finset.mem_filter, Finset.mem_insert]
          by_cases hxq : x = s.questionId
          · subst hxq
            constructor
            · intro _; left; rfl
            · intro _
              refine ⟨hmem, ?_⟩
              rw [hf'q0]
              exact hm
          · rw [bestOf_append_congr P s x hxq]
            constructor
            · intro hx; right; exact hx
            · intro hx
              rcases hx with hx | hx
              · exact absurd hx hxq
              · exact hx
        have hnm : s.questionId ∉ (qidsOf P).filter (fun q => 0 < bestOf P q) := by
          simp only [Finset.mem_filter]
          rintro ⟨-, hpos0⟩
          rw [hz] at hpos0
          exact lt_irrefl 0 hpos0
        rw [hset, Finset.card_insert_of_not_mem hnm]
        rw [if_pos ⟨by rw [hz]; exact hm, hz, hm⟩]
      · have hm0 : s.marksAwarded = 0 := le_antisymm (not_lt.mp hm) hs
        have hcong : (qidsOf P).filter (fun q => 0 < bestOf (P ++ [s]) q)
            = (qidsOf P).filter (fun q => 0 < bestOf P q) := by
          refine Finset.filter_congr ?_
          intro x _
          by_cases hxq : x = s.questionId
          · subst hxq
            rw [bestOf_append_single, if_pos rfl, hz, hm0]
            simp
          · rw [bestOf_append_congr P s x hxq]
        rw [hcong, if_neg (by rintro ⟨-, -, hmp⟩; exact hm hmp), add_zero]
  · rw [Finset.filter_insert]
    have hz : bestOf P s.questionId = 0 := bestOf_not_attempted P _ hmem
    have hf'q0 : bestOf (P ++ [s]) s.questionId = s.marksAwarded := by
      rw [bestOf_append_single, if_pos rfl, hz, max_eq_right hs]
    have hcong : (qidsOf P).filter (fun q => 0 < bestOf (P ++ [s]) q)
        = (qidsOf P).filter (fun q => 0 < bestOf P q) := by
      refine Finset.filter_congr ?_
      intro x hx
      have hxq : x ≠ s.questionId := by
        intro h
        rw [h] at hx
        exact hmem hx
      rw [bestOf_append_congr P s x hxq]
    by_cases hm : 0 < s.marksAwarded
    · rw [if_pos (by rw [hf'q0]; exact hm)]
      have hnm : s.questionId ∉
          (qidsOf P).filter (fun q => 0 < bestOf (P ++ [s]) q) := by
        intro hmemf
        exact hmem (Finset.mem_of_mem_filter _ hmemf)
      rw [Finset.card_insert_of_not_mem hnm, hcong]
      rw [if_pos ⟨by rw [hz]; exact hm, hz, hm⟩]
    · rw [if_neg (by rw [hf'q0]; exact hm)]
      rw [hcong, if_neg (by rintro ⟨-, -, hmp⟩; exact hm hmp), add_zero]

theorem lbInv_base (s : LBSubmission) : lbInv [] (freshEntry s) := by
  refine ⟨?_, ?_, ?_, ?_⟩ <;>
    simp [freshEntry, amFind, bestOf, marksFor, lbTotalScoreSpec,
      lbSolvedSpec, lbTimeSpec, qidsOf]

theorem lbInv_step (P : List LBSubmission) (s : LBSubmission) (us : UserScore)
    (hs : 0 ≤ s.marksAwarded) (h : lbInv P us) :
    lbInv (P ++ [s]) (suStep us s) := by
  obtain ⟨hq, hts, hps, htt⟩ := h
  have hcur : (amFind s.questionId us.questionScores).getD 0
      = bestOf P s.questionId := hq s.questionId
  refine ⟨?_, ?_, ?_, ?_⟩
  · intro q
    rw [suStep_questionScores, bestOf_append_single]
    by_cases himp : (amFind s.questionId us.questionScores).getD 0
        < s.marksAwarded
    · rw [if_pos himp]
      by_cases hq0 : s.questionId = q
      · rw [if_pos hq0]
        subst hq0
        rw [amFind_amSet_self]
        simp only [Option.getD_some]
        rw [← hcur]
        exact (max_eq_right (le_of_lt himp)).symm
      · rw [if_neg hq0,
          amFind_amSet_ne s.questionId q _ (fun hh => hq0 hh.symm)]
        exact hq q
    · rw [if_neg himp]
      by_cases hq0 : s.questionId = q
      · subst hq0
        rw [if_pos rfl]
        rw [hcur] at himp ⊢
        exact (max_eq_left (not_lt.mp himp)).symm
      · rw [if_neg hq0]
        exact hq q
  · rw [suStep_totalScore, lbTotalScoreSpec_append P s hs, hcur]
    by_cases himp : bestOf P s.questionId < s.marksAwarded
    · rw [if_pos himp, if_pos himp, hts]
    · rw [if_neg himp, if_neg himp, hts, add_zero]
  · rw [suStep_problemsSolved, lbSolvedSpec_append P s hs, hcur]
    by_cases himp : bestOf P s.questionId < s.marksAwarded
    · rw [if_pos himp, hps]
      by_cases hz : bestOf P s.questionId = 0 ∧ 0 < s.marksAwarded
      · rw [if_pos hz, if_pos ⟨himp, hz⟩]
      · rw [if_neg hz, if_neg (by rintro ⟨-, h1, h2⟩; exact hz ⟨h1, h2⟩)]
    · rw [if_neg himp, hps,
        if_neg (by rintro ⟨h1, -, -⟩; exact himp h1), add_zero]
  · rw [suStep_totalTime, lbTimeSpec_append, htt]

theorem lbInv_foldl (P : List LBSubmission) :
    ∀ (Q : List LBSubmission) (us : UserScore), lbInv Q us →
      (∀ x ∈ P, 0 ≤ x.marksAwarded) →
      lbInv (Q ++ P) (P.foldl suStep us) := by
  induction P with
  | nil =>
      intro Q us h _
      simpa using h
  | cons s rest ih =>
      intro Q us h hall
      rw [List.foldl_cons]
      have h1 := lbInv_step Q s us (hall s (by simp)) h
      have h2 := ih (Q ++ [s]) (suStep us s) h1
        (fun x hx => hall x (by simp [hx]))
      simpa [List.append_assoc] using h2

theorem suFoldOpt_some (P : List LBSubmission) :
    ∀ us : UserScore, suFoldOpt (some us) P = some (P.foldl suStep us) := by
  induction P with
  | nil => intro us; rfl
  | cons s rest ih =>
      intro us
      simp only [suFoldOpt, List.foldl_cons, Option.getD_some] at ih ⊢
      exact ih (suStep us s)

theorem buildScores_entry (subs : List LBSubmission) (u : String)
    (e : UserScore) (hall : ∀ x ∈ subs, 0 ≤ x.marksAwarded)
    (hfind : amFind u (buildScores subs) = some e) :
    lbInv (subsFor u subs) e ∧ e.userId = u ∧ subsFor u subs ≠ [] := by
  have hgroup := buildScores_group subs [] u
  rw [show amFind u ([] : List (String × UserScore)) = none from rfl] at hgroup
  unfold buildScores at hfind
  rw [hgroup] at hfind
  cases hsf : subsFor u subs with
  | nil =>
      rw [hsf] at hfind
      exact Option.noConfusion hfind
  | cons s0 rest =>
      rw [hsf] at hfind
      have hstep1 : suFoldOpt none (s0 :: rest)
          = suFoldOpt (some (suStep (freshEntry s0) s0)) rest := rfl
      rw [hstep1, suFoldOpt_some] at hfind
      have he : e = rest.foldl suStep (suStep (freshEntry s0) s0) :=
        (Option.some.inj hfind).symm
      have hmem0 : s0 ∈ subsFor u subs := by
        rw [hsf]
        exact List.mem_cons_self s0 rest
      have hall' : ∀ x ∈ subsFor u subs, 0 ≤ x.marksAwarded := by
        intro x hx
        exact hall x (List.mem_of_mem_filter hx)
      have hu0 : s0.userId = u := by
        have := List.of_mem_filter hmem0
        simpa using this
      have hinv0 : lbInv [s0] (suStep (freshEntry s0) s0) := by
        have := lbInv_step [] s0 (freshEntry s0)
          (hall' s0 hmem0) (lbInv_base s0)
        simpa using this
      have hinv : lbInv ([s0] ++ rest)
          (rest.foldl suStep (suStep (freshEntry s0) s0)) := by
        refine lbInv_foldl rest [s0] _ hinv0 ?_
        intro x hx
        refine hall' x ?_
        rw [hsf]
        exact List.mem_cons_of_mem s0 hx
      refine ⟨?_, ?_, ?_⟩
      · rw [he]
        simpa using hinv
      · rw [he, foldl_suStep_userId, suStep_userId]
        simp [freshEntry, hu0]
      · simp

theorem amSet_keys_sub {α : Type} (k : String) (v : α) :
    ∀ (m : List (String × α)) (k2 : String),
      k2 ∈ (amSet k v m).map Prod.fst → k2 = k ∨ k2 ∈ m.map Prod.fst := by
  intro m
  induction m with
  | nil =>
      intro k2 h
      simp [amSet] at h
      exact Or.inl h
  | cons p rest ih =>
      obtain ⟨k3, v3⟩ := p
      intro k2 h
      by_cases hk : k3 = k
      · rw [show amSet k v ((k3, v3) :: rest) = (k, v) :: rest from by
          simp [amSet, hk]] at h
        simp only [List.map_cons, List.mem_cons] at h
        simp only [List.map_cons, List.mem_cons]
        rcases h with h | h
        · exact Or.inl h
        · exact Or.inr (Or.inr h)
      · simp only [amSet, if_neg hk, List.map_cons, List.mem_cons] at h
        simp only [List.map_cons, List.mem_cons]
        rcases h with h | h
        · exact Or.inr (Or.inl h)
        · rcases ih k2 h with h2 | h2
          · exact Or.inl h2
          · exact Or.inr (Or.inr h2)

theorem amSet_keys_nodup {α : Type} (k : String) (v : α) :
    ∀ m : List (String × α), (m.map Prod.fst).Nodup →
      ((amSet k v m).map Prod.fst).Nodup := by
  intro m
  induction m with
  | nil =>
      intro _
      simp [amSet]
  | cons p rest ih =>
      obtain ⟨k3, v3⟩ := p
      intro hnd
      simp only [List.map_cons, List.nodup_cons] at hnd
      obtain ⟨hk3, hrest⟩ := hnd
      by_cases hk : k3 = k
      · rw [show amSet k v ((k3, v3) :: rest) = (k, v) :: rest from by
          simp [amSet, hk]]
        simp only [List.map_cons, List.nodup_cons]
        exact ⟨hk ▸ hk3, hrest⟩
      · simp only [amSet, if_neg hk, List.map_cons, List.nodup_cons]
        refine ⟨?_, ih hrest⟩
        intro hmem
        rcases amSet_keys_sub k v rest k3 hmem with h | h
        · exact hk h
        · exact hk3 h

theorem buildScores_keys_nodup (subs : List LBSubmission) :
    ∀ m : List (String × UserScore), (m.map Prod.fst).Nodup →
      ((subs.foldl lbStep m).map Prod.fst).Nodup := by
  induction subs with
  | nil => intro m h; exact h
  | cons s rest ih =>
      intro m h
      rw [List.foldl_cons]
      exact ih _ (amSet_keys_nodup _ _ m h)

theorem amFind_of_mem {α : Type} (k : String) (v : α) :
    ∀ m : List (String × α), (m.map Prod.fst).Nodup → (k, v) ∈ m →
      amFind k m = some v := by
  intro m
  induction m with
  | nil =>
      intro _ h
      simp at h
  | cons p rest ih =>
      obtain ⟨k3, v3⟩ := p
      intro hnd hmem
      simp only [List.map_cons, List.nodup_cons] at hnd
      rcases List.mem_cons.mp hmem with h | h
      · injection h with h1 h2
        subst h1
        subst h2
        simp [amFind]
      · have hkmem : k ∈ rest.map Prod.fst :=
          List.mem_map.mpr ⟨(k, v), h, rfl⟩
        have hne : k3 ≠ k := fun he => hnd.1 (he ▸ hkmem)
        simp [amFind, hne, ih hnd.2 h]

theorem mem_buildLeaderboard (mp : ℚ) (subs : List LBSubmission)
    (e : UserScore) (he : e ∈ buildLeaderboard mp subs) :
    ∃ u e0, amFind u (buildScores subs) = some e0 ∧
      e.userId = e0.userId ∧ e.totalScore = e0.totalScore ∧
      e.problemsSolved = e0.problemsSolved ∧ e.totalTime = e0.totalTime := by
  unfold buildLeaderboard sortEntries at he
  have hperm := List.perm_insertionSort
    (fun a b : UserScore => cmpEntries a b ≤ 0)
    (setMaxPossible mp (buildScores subs))
  have he2 : e ∈ setMaxPossible mp (buildScores subs) := hperm.mem_iff.mp he
  unfold setMaxPossible at he2
  obtain ⟨p, hp, rfl⟩ := List.mem_map.mp he2
  obtain ⟨u, e0⟩ := p
  refine ⟨u, e0, ?_, rfl, rfl, rfl, rfl⟩
  exact amFind_of_mem u e0 _ (buildScores_keys_nodup subs [] (by simp)) hp

/-- C6 (confirmed): for every entry of the leaderboard built by
`buildLeaderboard`, `totalScore` is the sum over attempted questions of
the best `marksAwarded` among that user's submissions for the question
(so a later lower-scoring submission never decreases it),
`problemsSolved` counts exactly the questions whose best score is
positive (incremented once, when the best first becomes positive), and
`totalTime` accumulates `executionTime` over every submission considered;
the per-question best is attained by one of the user's submissions. -/
theorem claim6_best_score_totals (maxPossible : ℚ) (subs : List LBSubmission)
    (hall : ∀ x ∈ subs, 0 ≤ x.marksAwarded) :
    ∀ e ∈ buildLeaderboard maxPossible subs,
      e.totalScore = lbTotalScoreSpec (subsFor e.userId subs) ∧
      e.problemsSolved = lbSolvedSpec (subsFor e.userId subs) ∧
      e.totalTime = lbTimeSpec (subsFor e.userId subs) ∧
      ∀ q ∈ qidsOf (subsFor e.userId subs),
        bestOf (subsFor e.userId subs) q
          ∈ marksFor q (subsFor e.userId subs) := by
  intro e he
  obtain ⟨u, e0, hfind, huid, hts, hps, htt⟩ :=
    mem_buildLeaderboard maxPossible subs e he
  obtain ⟨⟨-, hts0, hps0, htt0⟩, huid0, -⟩ :=
    buildScores_entry subs u e0 hall hfind
  have huu : e.userId = u := by rw [huid, huid0]
  rw [huu, hts, hps, htt]
  refine ⟨hts0, hps0, htt0, ?_⟩
  intro q hq
  unfold bestOf
  refine foldr_max_mem _ ?_ ?_
  · intro m hm
    unfold marksFor at hm
    obtain ⟨x, hx, rfl⟩ := List.mem_map.mp hm
    exact hall x (List.mem_of_mem_filter (List.mem_of_mem_filter hx))
  · obtain ⟨x, hx, hxq⟩ := (mem_qidsOf _ _).mp hq
    intro hnil
    have hmm : x.marksAwarded ∈ marksFor q (subsFor u subs) := by
      unfold marksFor
      refine List.mem_map.mpr ⟨x, ?_, rfl⟩
      exact List.mem_filter.mpr ⟨hx, by simp [hxq]⟩
    rw [hnil] at hmm
    exact absurd hmm (List.not_mem_nil _)

/-- C6 witness: on a single zero-mark submission the aggregated entry's
fields match the specification values. -/
theorem claim6_best_score_witness :
    lbEntryZ.totalScore = lbTotalScoreSpec (subsFor lbEntryZ.userId [lbSubZ]) ∧
    lbEntryZ.problemsSolved = lbSolvedSpec (subsFor lbEntryZ.userId [lbSubZ]) ∧
    lbEntryZ.totalTime = lbTimeSpec (subsFor lbEntryZ.userId [lbSubZ]) := by
  have h := claim6_best_score_totals 40 [lbSubZ] (by decide) lbEntryZ (by decide)
  exact ⟨h.1, h.2.1, h.2.2.1⟩

theorem lbRel_total (a b : UserScore) : lbRel a b ∨ lbRel b a := by
  unfold lbRel
  rcases lt_trichotomy a.totalScore b.totalScore with h | h | h
  · right; left; exact h
  · rcases lt_trichotomy a.problemsSolved b.problemsSolved with h2 | h2 | h2
    · right; right; exact ⟨h, Or.inl h2⟩
    · rcases le_total a.totalTime b.totalTime with h3 | h3
      · left; right; exact ⟨h.symm, Or.inr ⟨h2.symm, h3⟩⟩
      · right; right; exact ⟨h, Or.inr ⟨h2, h3⟩⟩
    · left; right; exact ⟨h.symm, Or.inl h2⟩
  · left; left; exact h

theorem lbRel_trans (a b c : UserScore) (h1 : lbRel a b) (h2 : lbRel b c) :
    lbRel a c := by
  unfold lbRel at h1 h2 ⊢
  rcases h1 with h1 | ⟨e1, h1⟩
  · rcases h2 with h2 | ⟨e2, h2⟩
    · left; exact lt_trans h2 h1
    · left; rw [e2]; exact h1
  · rcases h2 with h2 | ⟨e2, h2⟩
    · left; rw [← e1]; exact h2
    · right
      refine ⟨by rw [e2, e1], ?_⟩
      rcases h1 with h1 | ⟨p1, h1⟩
      · rcases h2 with h2 | ⟨p2, h2⟩
        · left; exact lt_trans h2 h1
        · left; rw [p2]; exact h1
      · rcases h2 with h2 | ⟨p2, h2⟩
        · left; rw [← p1]; exact h2
        · right; exact ⟨by rw [p2, p1], le_trans h1 h2⟩

theorem cmpEntries_le_iff (a b : UserScore) :
    cmpEntries a b ≤ 0 ↔ lbRel a b := by
  unfold cmpEntries lbRel
  by_cases h1 : b.totalScore ≠ a.totalScore
  · rw [if_pos h1]
    constructor
    · intro h
      left
      exact lt_of_le_of_ne (by linarith) h1
    · rintro (h | ⟨he, -⟩)
      · linarith
      · exact absurd he h1
  · rw [if_neg h1]
    have he1 : b.totalScore = a.totalScore := not_not.mp h1
    by_cases h2 : b.problemsSolved ≠ a.problemsSolved
    · rw [if_pos h2]
      constructor
      · intro h
        right
        refine ⟨he1, Or.inl ?_⟩
        have hc : (b.problemsSolved : ℚ) ≤ (a.problemsSolved : ℚ) := by
          linarith
        exact lt_of_le_of_ne (by exact_mod_cast hc) h2
      · rintro (h | ⟨-, h | ⟨hp, -⟩⟩)
        · rw [he1] at h
          exact absurd h (lt_irrefl _)
        · have hc : (b.problemsSolved : ℚ) < (a.problemsSolved : ℚ) := by
            exact_mod_cast h
          linarith
        · exact absurd hp h2
    · rw [if_neg h2]
      have he2 : b.problemsSolved = a.problemsSolved := not_not.mp h2
      constructor
      · intro h
        right
        refine ⟨he1, Or.inr ⟨he2, ?_⟩⟩
        have hc : (a.totalTime : ℚ) ≤ (b.totalTime : ℚ) := by linarith
        exact_mod_cast hc
      · rintro (h | ⟨-, h | ⟨-, htt⟩⟩)
        · rw [he1] at h
          exact absurd h (lt_irrefl _)
        · rw [he2] at h
          exact absurd h (lt_irrefl _)
        · have hc : (a.totalTime : ℚ) ≤ (b.totalTime : ℚ) := by
            exact_mod_cast htt
          linarith

/-- C7 (confirmed): the leaderboard returned by `buildLeaderboard` is
sorted by `totalScore` descending, ties broken by `problemsSolved`
descending, remaining ties by `totalTime` ascending. -/
theorem claim7_leaderboard_sorted (maxPossible : ℚ)
    (subs : List LBSubmission) :
    List.Sorted lbRel (buildLeaderboard maxPossible subs) := by
  haveI htot : IsTotal UserScore (fun a b => cmpEntries a b ≤ 0) := by
    constructor
    intro a b
    rcases lbRel_total a b with h | h
    · exact Or.inl ((cmpEntries_le_iff a b).mpr h)
    · exact Or.inr ((cmpEntries_le_iff b a).mpr h)
  haveI htrans : IsTrans UserScore (fun a b => cmpEntries a b ≤ 0) := by
    constructor
    intro a b c h1 h2
    exact (cmpEntries_le_iff a c).mpr
      (lbRel_trans a b c ((cmpEntries_le_iff a b).mp h1)
        ((cmpEntries_le_iff b c).mp h2))
  have hs : List.Sorted (fun a b => cmpEntries a b ≤ 0)
      (buildLeaderboard maxPossible subs) := by
    unfold buildLeaderboard sortEntries
    exact List.sorted_insertionSort _ _
  exact List.Pairwise.imp (fun {a b} h => (cmpEntries_le_iff a b).mp h) hs

/-- The spec's worked leaderboard example: user1 scores 40, then submits
a worse 30 on the same question (the route scans newest first); the
aggregated entry keeps `totalScore = 40`, counts the question solved
once, and accumulates both execution times. -/
theorem leaderboard_example_40_30 :
    amFind "u1" (buildScores lbExample) = some lbEntry40 := by
  norm_num [buildScores, lbStep, lbExample, lbSubA, lbSubB, suStep,
    freshEntry, amFind, amSet, lbEntry40]
